import Mathlib

/-
Verification of writeMOCFromGWMap.py (gkligo) against its specification.

The program reads a multi-order HEALPix probability map (cells carrying a
NUNIQ index and a probability density), sorts it by density in descending
order, forms the per-cell probability masses and their cumulative sums,
locates the requested confidence contour with a leftmost-insertion-point
search (numpy searchsorted, side='left'), and either reports the enclosed
sky area in square degrees (getContourArea) or writes the selected cells'
UNIQ values as a MOC file (writeMOC), afterwards fixing the TFORM1 header
of the written file to the explicit signed-64-bit code '1K'.  writeFiles
iterates this over a comma-separated list of requested contour levels,
catching ValueError only.

Modelling conventions:
- densities and all exact arithmetic are over the rationals; pixel areas
  are carried as rational multiples of the steradian value pi, that is,
  uniq2pixarea(u) = uniq2pixareaCoeff u * pi; the final square-degree
  area (a real number) reinstates the factor of pi explicitly.
- astropy's Table.sort(keys, reverse=True) computes an ascending argsort
  and then reverses the index array; ties are determinized here by a
  stable ascending insertion sort (numpy's sort falls back to insertion
  sort, which is stable, on segments of the size of all concrete inputs
  considered below).
- getContourArea and writeMOC contain no validation and no raise
  statements, so their embeddings are total functions; writeMOC's output
  is modelled by the list of UNIQ values it writes (writeMOCRows) and by
  the FITS-container model MocFits for the post-write header correction.
- the FITS container is modelled at the astropy object level: a header
  (association list of keyword/value pairs) plus the payload rows; the
  byte-level serialization is the external library's fixed contract.
- writeFiles' per-contour body (float(contour) parse, then writeMOC) is
  abstracted as an outcome oracle returning ok or a Python exception
  kind, since its failures arise in external I/O; the try/except
  ValueError control flow around it is embedded faithfully.
-/

structure Cell where
  uniq : Nat
  probdensity : ℚ
deriving DecidableEq

/-- Floor of log2 by structural recursion on a fuel argument, so that the
kernel can evaluate it (Nat.log2 uses well-founded recursion); proved
equal to Nat.log2 below. -/
def log2floorFuel : Nat → Nat → Nat
  | 0, _ => 0
  | fuel + 1, n => if n < 2 then 0 else log2floorFuel fuel (n / 2) + 1

/-- Floor of log2 of a natural number (0 at 0 and 1). -/
def log2floor (n : Nat) : Nat := log2floorFuel n n

/-- Decoding of the HEALPix order from a NUNIQ index, as in
ligo.skymap.moc.uniq2order: order = floor(log2 uniq) / 2 - 1. -/
def uniq2order (u : Nat) : Nat := log2floor u / 2 - 1

/-- Pixel solid angle of a NUNIQ cell in units of pi steradians:
uniq2pixarea(u) = 4*pi / (12 * 4^order) = uniq2pixareaCoeff u * pi. -/
def uniq2pixareaCoeff (u : Nat) : ℚ := 1 / (3 * 4 ^ uniq2order u)

/-- Stable ascending insertion (by probdensity) of one cell. -/
def insertAsc (c : Cell) : List Cell → List Cell
  | [] => [c]
  | x :: xs => if x.probdensity < c.probdensity then x :: insertAsc c xs else c :: x :: xs

/-- Stable ascending sort by probdensity. -/
def sortAsc : List Cell → List Cell
  | [] => []
  | c :: cs => insertAsc c (sortAsc cs)

/-- skymap.sort('PROBDENSITY', reverse=True): astropy computes an
ascending argsort and reverses the resulting index array. -/
def rankCells (m : List Cell) : List Cell := (sortAsc m).reverse

/-- prob = pixel_area * skymap['PROBDENSITY'], per cell, in units of pi. -/
def probs (m : List Cell) : List ℚ := m.map (fun c => uniq2pixareaCoeff c.uniq * c.probdensity)

/-- Running sums with accumulator (helper for np.cumsum). -/
def cumsumFrom (acc : ℚ) : List ℚ → List ℚ
  | [] => []
  | x :: xs => (acc + x) :: cumsumFrom (acc + x) xs

/-- np.cumsum. -/
def cumsum (l : List ℚ) : List ℚ := cumsumFrom 0 l

/-- numpy searchsorted with side='left' on a sorted array: the leftmost
insertion index, i.e. the length of the longest prefix of entries < v. -/
def searchsortedLeft (a : List ℚ) (v : ℚ) : Nat :=
  (a.takeWhile (fun x => decide (x < v))).length

/-- i = cumprob.searchsorted(contour*sumprob), after ranking. -/
def contourIndex (m : List Cell) (contour : ℚ) : Nat :=
  searchsortedLeft (cumsum (probs (rankCells m))) (contour * (probs (rankCells m)).sum)

/-- pixel_area[:i].sum(), in units of pi steradians. -/
def getContourAreaCoeff (m : List Cell) (contour : ℚ) : ℚ :=
  (((rankCells m).take (contourIndex m contour)).map (fun c => uniq2pixareaCoeff c.uniq)).sum

/-- getContourArea: float(pixel_area[:i].sum() * (180/pi)**2), in square
degrees; the pixel-area sum is getContourAreaCoeff * pi steradians. -/
noncomputable def getContourArea (m : List Cell) (contour : ℚ) : ℝ :=
  (getContourAreaCoeff m contour : ℝ) * Real.pi * (180 / Real.pi) ^ 2

/-- writeMOC's output payload: skymap[:i]['UNIQ',], the UNIQ column of the
first i ranked cells. -/
def writeMOCRows (m : List Cell) (contour : ℚ) : List Nat :=
  ((rankCells m).take (contourIndex m contour)).map Cell.uniq

/-- The spec's scenario map: four cells of one resolution order with
densities 0.1, 0.4, 0.3, 0.2. -/
def scMap : List Cell := [⟨4, 1/10⟩, ⟨5, 2/5⟩, ⟨6, 3/10⟩, ⟨7, 1/5⟩]

/-- Two cells of different orders and equal density, in input order. -/
def tieMapA : List Cell := [⟨4, 1⟩, ⟨16, 1⟩]

/-- The same two cells in the opposite input order. -/
def tieMapB : List Cell := [⟨16, 1⟩, ⟨4, 1⟩]

/-- A three-cell map whose two densest cells appear in input order 4, 5
while ranking swaps them. -/
def c8Map : List Cell := [⟨4, 3/10⟩, ⟨5, 1/2⟩, ⟨6, 1/5⟩]

/-- The kinds of Python exception relevant to writeFiles' control flow. -/
inductive PyErr where
  | valueError
  | ioError
  | otherError
deriving DecidableEq

/-- The for-loop of writeFiles over the requested contour strings: the
body of each iteration (float(contour) parse followed by writeMOC) is
given as an outcome oracle; a ValueError is caught and logged and the
loop continues, any other exception propagates out of writeFiles.
Returns the contours whose iterations ran, and the escaping exception,
if any. -/
def runContours (body : String → Except PyErr Unit) : List String → List String × Option PyErr
  | [] => ([], none)
  | s :: rest =>
    match body s with
    | Except.ok _ => ((runContours body rest).1.cons s, (runContours body rest).2)
    | Except.error PyErr.valueError => ((runContours body rest).1.cons s, (runContours body rest).2)
    | Except.error e => ([s], some e)

/-- A body whose iteration at contour "50" raises an IOError (as a failed
output write would) and succeeds elsewhere. -/
def ioFailBody : String → Except PyErr Unit :=
  fun s => if s = "50" then Except.error PyErr.ioError else Except.ok ()

/-- Filesystem effects performed by writeFiles. -/
inductive FSEffect where
  | makeDirs (dir : String)
  | writeMOCFile (path : String)
deriving DecidableEq

/-- Whether an effect is a MOC-file write. -/
def isWriteEffect : FSEffect → Bool
  | FSEffect.writeMOCFile _ => true
  | FSEffect.makeDirs _ => false

/-- Effects of one iteration of writeFiles at contour string s: when
float(s) parses, the organise branch runs os.makedirs(directory) and then
writeMOC at directory + '/' + s + '.moc', while the plain branch runs
writeMOC at that same path; a parse failure raises ValueError before any
effect and is caught. -/
def contourEffects (parse : String → Option ℚ) (dir : String) (organise : Bool)
    (s : String) : List FSEffect :=
  match parse s with
  | none => []
  | some _ =>
    if organise then
      [FSEffect.makeDirs dir, FSEffect.writeMOCFile (dir ++ "/" ++ s ++ ".moc")]
    else
      [FSEffect.writeMOCFile (dir ++ "/" ++ s ++ ".moc")]

/-- All filesystem effects of writeFiles over its contour list. -/
def writeFilesEffects (parse : String → Option ℚ) (dir : String) (organise : Bool)
    (contours : List String) : List FSEffect :=
  (contours.map (contourEffects parse dir organise)).flatten

/-- Lookup of a FITS header keyword (astropy Header access). -/
def headerLookup (k : String) : List (String × String) → Option String
  | [] => none
  | (k', v) :: rest => if k' = k then some v else headerLookup k rest

/-- Assignment to a FITS header keyword (astropy Header item assignment):
the first existing card with that keyword is overwritten in place, and a
missing keyword is appended. -/
def headerSet (k v : String) : List (String × String) → List (String × String)
  | [] => [(k, v)]
  | (k', v') :: rest => if k' = k then (k, v) :: rest else (k', v') :: headerSet k v rest

/-- The written MOC container at the astropy object level: the binary
table HDU's header cards and its payload rows (the UNIQ column values). -/
structure MocFits where
  header : List (String × String)
  payload : List Int
deriving DecidableEq

/-- The post-write correction of writeMOC: reopen the container, assign
header['TFORM1'] = '1K', and rewrite it; nothing else is touched. -/
def correctMocHeader (f : MocFits) : MocFits :=
  { f with header := headerSet "TFORM1" "1K" f.header }

/- ------------------------------------------------------------------ -/
/- Helper lemmas.                                                      -/
/- ------------------------------------------------------------------ -/

theorem log2floorFuel_eq_log2 : ∀ fuel n, n ≤ fuel → log2floorFuel fuel n = Nat.log2 n := by
  intro fuel
  induction fuel with
  | zero =>
    intro n hn
    interval_cases n
    simp [log2floorFuel, Nat.log2]
  | succ fuel ih =>
    intro n hn
    rw [log2floorFuel, Nat.log2]
    by_cases h2 : n ≥ 2
    · have hlt : n / 2 ≤ fuel := by omega
      simp [h2, ih (n / 2) hlt]
    · have : n < 2 := by omega
      simp [this, h2]

theorem log2floor_eq_log2 (n : Nat) : log2floor n = Nat.log2 n :=
  log2floorFuel_eq_log2 n n (Nat.le_refl n)

theorem uniq2pixareaCoeff_pos (u : Nat) : 0 < uniq2pixareaCoeff u := by
  unfold uniq2pixareaCoeff
  positivity

theorem takeWhile_getD_of_lt (p : ℚ → Bool) :
    ∀ (l : List ℚ) (j : Nat), j < (l.takeWhile p).length → p (l.getD j 0) = true := by
  intro l
  induction l with
  | nil => intro j hj; simp at hj
  | cons x xs ih =>
    intro j hj
    rw [List.takeWhile_cons] at hj
    cases hp : p x with
    | false => simp [hp] at hj
    | true =>
      rw [hp] at hj
      simp only [if_true, List.length_cons, Nat.lt_succ_iff] at hj
      cases j with
      | zero => simpa using hp
      | succ j =>
        simp only [List.getD_cons_succ]
        exact ih j (by omega)

theorem takeWhile_getD_at_stop (p : ℚ → Bool) :
    ∀ l : List ℚ, (l.takeWhile p).length < l.length →
      p (l.getD (l.takeWhile p).length 0) = false := by
  intro l
  induction l with
  | nil => intro h; simp at h
  | cons x xs ih =>
    intro h
    rw [List.takeWhile_cons] at h ⊢
    cases hp : p x with
    | false => simpa using hp
    | true =>
      simp only [hp, eq_self_iff_true, if_true] at h ⊢
      simp only [List.length_cons, Nat.succ_lt_succ_iff] at h
      simpa using ih h

theorem takeWhile_length_mono (p q : ℚ → Bool) (hpq : ∀ x, p x = true → q x = true) :
    ∀ l : List ℚ, (l.takeWhile p).length ≤ (l.takeWhile q).length := by
  intro l
  induction l with
  | nil => simp
  | cons x xs ih =>
    rw [List.takeWhile_cons, List.takeWhile_cons]
    cases hp : p x with
    | false => simp
    | true =>
      rw [hpq x hp]
      simpa using ih

theorem takeWhile_length_le (p : ℚ → Bool) (l : List ℚ) :
    (l.takeWhile p).length ≤ l.length :=
  (List.takeWhile_sublist p).length_le

theorem cumsumFrom_length (l : List ℚ) : ∀ acc, (cumsumFrom acc l).length = l.length := by
  induction l with
  | nil => intro acc; rfl
  | cons x xs ih => intro acc; simp [cumsumFrom, ih]

theorem cumsum_length (l : List ℚ) : (cumsum l).length = l.length :=
  cumsumFrom_length l 0

theorem cumsumFrom_getD (l : List ℚ) : ∀ acc j, j < l.length →
    (cumsumFrom acc l).getD j 0 = acc + (l.take (j + 1)).sum := by
  induction l with
  | nil => intro acc j hj; simp at hj
  | cons x xs ih =>
    intro acc j hj
    cases j with
    | zero => simp [cumsumFrom]
    | succ j =>
      simp only [List.length_cons, Nat.succ_lt_succ_iff] at hj
      have := ih (acc + x) j hj
      simp only [cumsumFrom, List.getD_cons_succ, List.take_succ_cons, List.sum_cons, this]
      ring

theorem cumsum_getD (l : List ℚ) (j : Nat) (hj : j < l.length) :
    (cumsum l).getD j 0 = (l.take (j + 1)).sum := by
  have := cumsumFrom_getD l 0 j hj
  simpa [cumsum] using this

theorem cumsumFrom_chain' :
    ∀ l : List ℚ, (∀ x ∈ l, 0 ≤ x) →
      ∀ acc, List.Chain' (· ≤ ·) (cumsumFrom acc l) := by
  intro l
  induction l with
  | nil => intro _ acc; simp [cumsumFrom]
  | cons x xs ih =>
    intro hl acc
    rw [cumsumFrom, List.chain'_cons']
    constructor
    · intro b hb
      cases xs with
      | nil => simp [cumsumFrom] at hb
      | cons y ys =>
        simp only [cumsumFrom, List.head?_cons, Option.mem_def, Option.some.injEq] at hb
        have hy : 0 ≤ y := hl y (by simp)
        rw [← hb]
        linarith
    · exact ih (fun z hz => hl z (List.mem_cons_of_mem x hz)) (acc + x)

theorem sum_take_mono (l : List ℚ) (hl : ∀ x ∈ l, 0 ≤ x) {i j : Nat} (hij : i ≤ j) :
    (l.take i).sum ≤ (l.take j).sum := by
  have hj : j = i + (j - i) := by omega
  rw [hj, List.take_add, List.sum_append]
  have : 0 ≤ ((l.drop i).take (j - i)).sum := by
    apply List.sum_nonneg
    intro x hx
    exact hl x (((List.take_sublist _ _).trans (List.drop_sublist _ _)).mem hx)
  linarith

theorem insertAsc_perm (c : Cell) : ∀ l : List Cell, (insertAsc c l).Perm (c :: l) := by
  intro l
  induction l with
  | nil => simp [insertAsc]
  | cons x xs ih =>
    rw [insertAsc]
    by_cases h : x.probdensity < c.probdensity
    · simp only [if_pos h]
      exact (ih.cons x).trans (List.Perm.swap c x xs)
    · simp [if_neg h]

theorem sortAsc_perm : ∀ l : List Cell, (sortAsc l).Perm l := by
  intro l
  induction l with
  | nil => simp [sortAsc]
  | cons x xs ih =>
    rw [sortAsc]
    exact (insertAsc_perm x (sortAsc xs)).trans (ih.cons x)

theorem rankCells_perm (m : List Cell) : (rankCells m).Perm m :=
  (List.reverse_perm (sortAsc m)).trans (sortAsc_perm m)

theorem rankCells_length (m : List Cell) : (rankCells m).length = m.length :=
  (rankCells_perm m).length_eq

theorem insertAsc_pairwise (c : Cell) :
    ∀ l : List Cell, l.Pairwise (fun a b => a.probdensity ≤ b.probdensity) →
      (insertAsc c l).Pairwise (fun a b => a.probdensity ≤ b.probdensity) := by
  intro l
  induction l with
  | nil => intro _; simp [insertAsc]
  | cons x xs ih =>
    intro hp
    rw [List.pairwise_cons] at hp
    rw [insertAsc]
    by_cases h : x.probdensity < c.probdensity
    · rw [if_pos h, List.pairwise_cons]
      refine ⟨?_, ih hp.2⟩
      intro b hb
      have hb2 : b ∈ c :: xs := (insertAsc_perm c xs).mem_iff.mp hb
      rcases List.mem_cons.mp hb2 with hb' | hb'
      · rw [hb']; exact le_of_lt h
      · exact hp.1 b hb'
    · rw [if_neg h, List.pairwise_cons]
      refine ⟨?_, List.pairwise_cons.mpr hp⟩
      intro b hb
      rcases List.mem_cons.mp hb with hb' | hb'
      · rw [hb']; exact le_of_not_lt h
      · exact le_trans (le_of_not_lt h) (hp.1 b hb')

theorem sortAsc_pairwise :
    ∀ l : List Cell, (sortAsc l).Pairwise (fun a b => a.probdensity ≤ b.probdensity) := by
  intro l
  induction l with
  | nil => simp [sortAsc]
  | cons x xs ih => exact insertAsc_pairwise x (sortAsc xs) ih

theorem sorted_distinct_eq :
    ∀ l1 l2 : List Cell,
      l1.Pairwise (fun a b => a.probdensity ≤ b.probdensity) →
      l2.Pairwise (fun a b => a.probdensity ≤ b.probdensity) →
      l1.Perm l2 →
      l1.Pairwise (fun a b => a.probdensity ≠ b.probdensity) →
      l1 = l2 := by
  intro l1
  induction l1 with
  | nil => intro l2 _ _ hperm _; simpa using hperm.nil_eq
  | cons a t1 ih =>
    intro l2 hs1 hs2 hperm hd
    cases l2 with
    | nil => exact absurd hperm.symm (by simp)
    | cons b t2 =>
      rw [List.pairwise_cons] at hs1 hs2
      rw [List.pairwise_cons] at hd
      have hab : a = b := by
        have ha2 : a ∈ b :: t2 := hperm.mem_iff.mp (by simp)
        rcases List.mem_cons.mp ha2 with h | h
        · exact h
        · have hba : b.probdensity ≤ a.probdensity := hs2.1 a h
          have hb1 : b ∈ a :: t1 := hperm.symm.mem_iff.mp (by simp)
          rcases List.mem_cons.mp hb1 with h' | h'
          · exact h'.symm
          · have hab' : a.probdensity ≤ b.probdensity := hs1.1 b h'
            exact absurd (le_antisymm hab' hba) (hd.1 b h')
      subst hab
      have ht : t1.Perm t2 := hperm.cons_inv
      rw [ih t2 hs1.2 hs2.2 ht hd.2]

theorem probs_nonneg (m : List Cell) (hm : ∀ c ∈ m, 0 ≤ c.probdensity) :
    ∀ x ∈ probs (rankCells m), 0 ≤ x := by
  intro x hx
  rcases List.mem_map.mp hx with ⟨c, hc, rfl⟩
  have hc' : c ∈ m := (rankCells_perm m).mem_iff.mp hc
  exact mul_nonneg (le_of_lt (uniq2pixareaCoeff_pos c.uniq)) (hm c hc')

theorem contourIndex_le_length (m : List Cell) (c : ℚ) : contourIndex m c ≤ m.length := by
  have h1 := takeWhile_length_le
    (fun x => decide (x < c * (probs (rankCells m)).sum)) (cumsum (probs (rankCells m)))
  have h2 : (cumsum (probs (rankCells m))).length = m.length := by
    rw [cumsum_length]
    simp [probs, rankCells_length]
  rw [h2] at h1
  exact h1

theorem headerLookup_headerSet_self (k v : String) :
    ∀ h : List (String × String), headerLookup k (headerSet k v h) = some v := by
  intro h
  induction h with
  | nil => simp [headerSet, headerLookup]
  | cons kv rest ih =>
    obtain ⟨k1, v1⟩ := kv
    rw [headerSet]
    by_cases hk1 : k1 = k
    · rw [if_pos hk1]; simp [headerLookup]
    · rw [if_neg hk1]
      rw [headerLookup, if_neg hk1]
      exact ih

theorem headerLookup_headerSet_ne (k v k' : String) (hk : k' ≠ k) :
    ∀ h : List (String × String), headerLookup k' (headerSet k v h) = headerLookup k' h := by
  intro h
  induction h with
  | nil => simp [headerSet, headerLookup, Ne.symm hk]
  | cons kv rest ih =>
    obtain ⟨k1, v1⟩ := kv
    rw [headerSet]
    by_cases hk1 : k1 = k
    · rw [if_pos hk1]
      subst hk1
      simp [headerLookup, Ne.symm hk]
    · rw [if_neg hk1]
      rw [headerLookup, headerLookup]
      by_cases hkv : k1 = k'
      · rw [if_pos hkv, if_pos hkv]
      · rw [if_neg hkv, if_neg hkv]
        exact ih

theorem scMap_index_half : contourIndex scMap (1/2) = 1 := by
  norm_num [scMap, contourIndex, rankCells, sortAsc, insertAsc, probs, cumsum, cumsumFrom,
    searchsortedLeft, uniq2pixareaCoeff, uniq2order, log2floor, log2floorFuel, List.takeWhile]

theorem scMap_index_ninety : contourIndex scMap (9/10) = 2 := by
  norm_num [scMap, contourIndex, rankCells, sortAsc, insertAsc, probs, cumsum, cumsumFrom,
    searchsortedLeft, uniq2pixareaCoeff, uniq2order, log2floor, log2floorFuel, List.takeWhile]

theorem scMap_rows_half : writeMOCRows scMap (1/2) = [5] := by
  norm_num [scMap, writeMOCRows, contourIndex, rankCells, sortAsc, insertAsc, probs, cumsum,
    cumsumFrom, searchsortedLeft, uniq2pixareaCoeff, uniq2order, log2floor, log2floorFuel,
    List.takeWhile]

theorem scMap_rows_ninety : writeMOCRows scMap (9/10) = [5, 6] := by
  norm_num [scMap, writeMOCRows, contourIndex, rankCells, sortAsc, insertAsc, probs, cumsum,
    cumsumFrom, searchsortedLeft, uniq2pixareaCoeff, uniq2order, log2floor, log2floorFuel,
    List.takeWhile]

theorem scMap_coeff_half : getContourAreaCoeff scMap (1/2) = 1/3 := by
  norm_num [scMap, getContourAreaCoeff, contourIndex, rankCells, sortAsc, insertAsc, probs,
    cumsum, cumsumFrom, searchsortedLeft, uniq2pixareaCoeff, uniq2order, log2floor,
    log2floorFuel, List.takeWhile]

theorem scMap_coeff_ninety : getContourAreaCoeff scMap (9/10) = 2/3 := by
  norm_num [scMap, getContourAreaCoeff, contourIndex, rankCells, sortAsc, insertAsc, probs,
    cumsum, cumsumFrom, searchsortedLeft, uniq2pixareaCoeff, uniq2order, log2floor,
    log2floorFuel, List.takeWhile]

theorem scMap_probs_sum : (probs (rankCells scMap)).sum = 1/3 := by
  norm_num [scMap, probs, rankCells, sortAsc, insertAsc, uniq2pixareaCoeff, uniq2order,
    log2floor, log2floorFuel]

theorem scMap_take1_sum : ((probs (rankCells scMap)).take 1).sum = 2/15 := by
  norm_num [scMap, probs, rankCells, sortAsc, insertAsc, uniq2pixareaCoeff, uniq2order,
    log2floor, log2floorFuel]

/- ------------------------------------------------------------------ -/
/- Claim theorems.                                                     -/
/- ------------------------------------------------------------------ -/

/-- C1 counterexample: at the spec's own scenario map and confidence 1/2,
the prefix selected by getContourArea (length contourIndex = 1) has
cumulative mass 2/15, strictly below (1/2) times the total mass 1/3, so
the code does not select the smallest prefix whose mass reaches the
threshold. -/
theorem contour_prefix_below_threshold_cex :
    contourIndex scMap (1/2) = 1 ∧
    ((probs (rankCells scMap)).take (contourIndex scMap (1/2))).sum
      < (1/2 : ℚ) * (probs (rankCells scMap)).sum := by
  refine ⟨scMap_index_half, ?_⟩
  rw [scMap_index_half, scMap_take1_sum, scMap_probs_sum]
  norm_num

/-- C1 (amended): getContourArea selects i = the leftmost insertion index
of c times the total mass in the cumulative-mass array: every prefix of
length 1..i has cumulative mass strictly below the target (in particular
the selected prefix itself), the prefix of length i+1 reaches the target
whenever it exists, and the returned value is the sum of the pixel areas
of the first i ranked cells times (180/pi)^2. -/
theorem getContourArea_leftmost (m : List Cell) (c : ℚ) (j : Nat)
    (hj : j < contourIndex m c) :
    ((probs (rankCells m)).take (j + 1)).sum < c * (probs (rankCells m)).sum ∧
    (contourIndex m c < m.length →
      c * (probs (rankCells m)).sum ≤
        ((probs (rankCells m)).take (contourIndex m c + 1)).sum) ∧
    getContourArea m c =
      ((((rankCells m).take (contourIndex m c)).map
          (fun cl => uniq2pixareaCoeff cl.uniq)).sum : ℝ) * Real.pi * (180 / Real.pi) ^ 2 := by
  have hprlen : (probs (rankCells m)).length = m.length := by
    rw [probs, List.length_map, rankCells_length]
  have hcumlen : (cumsum (probs (rankCells m))).length = (probs (rankCells m)).length :=
    cumsum_length _
  have hidx : contourIndex m c =
      ((cumsum (probs (rankCells m))).takeWhile
        (fun x => decide (x < c * (probs (rankCells m)).sum))).length := rfl
  refine ⟨?_, ?_, rfl⟩
  · have hlt := takeWhile_getD_of_lt
      (fun x => decide (x < c * (probs (rankCells m)).sum))
      (cumsum (probs (rankCells m))) j (by rw [← hidx]; exact hj)
    simp only [decide_eq_true_eq] at hlt
    have hjlen : j < (probs (rankCells m)).length := by
      have := contourIndex_le_length m c
      omega
    rw [cumsum_getD _ j hjlen] at hlt
    exact hlt
  · intro hlt
    have hstop := takeWhile_getD_at_stop
      (fun x => decide (x < c * (probs (rankCells m)).sum))
      (cumsum (probs (rankCells m)))
      (by rw [← hidx, hcumlen, hprlen]; exact hlt)
    rw [← hidx] at hstop
    simp only [decide_eq_false_iff_not, not_lt] at hstop
    have hilen : contourIndex m c < (probs (rankCells m)).length := by
      rw [hprlen]; exact hlt
    rw [cumsum_getD _ _ hilen] at hstop
    exact hstop

/-- C1 witness: the first conjunct of the amended theorem instantiated at
the scenario map, confidence 1/2 and prefix position 0. -/
theorem getContourArea_leftmost_witness :
    ((probs (rankCells scMap)).take (0 + 1)).sum < (1/2 : ℚ) * (probs (rankCells scMap)).sum :=
  (getContourArea_leftmost scMap (1/2) 0 (by rw [scMap_index_half]; norm_num)).1

/-- C2 counterexample: at confidence 0.5 on the scenario map the written
coverage map has exactly one row, not the two rows the claim states. -/
theorem scenario_half_rows_cex : (writeMOCRows scMap (1/2)).length = 1 := by
  rw [scMap_rows_half]
  rfl

/-- C2 (amended): on the scenario map the code selects prefix length 1 at
confidence 0.5 (one row, the UNIQ of the density-0.4 cell, area A in
square degrees for per-cell area A = pi/3 sr) and prefix length 2 at
confidence 0.9 (the UNIQ values of the density-0.4 and density-0.3 cells,
area 2A): one cell fewer at each confidence than the claim states. -/
theorem scenario_contours_amended :
    contourIndex scMap (1/2) = 1 ∧
    writeMOCRows scMap (1/2) = [5] ∧
    getContourArea scMap (1/2) = (Real.pi / 3) * (180 / Real.pi) ^ 2 ∧
    contourIndex scMap (9/10) = 2 ∧
    writeMOCRows scMap (9/10) = [5, 6] ∧
    getContourArea scMap (9/10) = 2 * (Real.pi / 3) * (180 / Real.pi) ^ 2 := by
  refine ⟨scMap_index_half, scMap_rows_half, ?_, scMap_index_ninety, scMap_rows_ninety, ?_⟩
  · rw [getContourArea, scMap_coeff_half]
    push_cast
    ring
  · rw [getContourArea, scMap_coeff_ninety]
    push_cast
    ring

/-- C3 counterexample: on the empty map neither function fails: the area
computation returns 0 and writeMOC writes an empty row list (and hence an
output file), contradicting the claimed InvalidInput failure. -/
theorem empty_map_no_error_cex :
    getContourArea [] (9/10) = 0 ∧ writeMOCRows [] (9/10) = [] := by
  constructor
  · have h0 : getContourAreaCoeff [] (9/10) = 0 := by
      norm_num [getContourAreaCoeff, rankCells, sortAsc]
    rw [getContourArea, h0]
    norm_num
  · norm_num [writeMOCRows, rankCells, sortAsc]

/-- C3 (amended): getContourArea and writeMOC perform no input
validation: for every confidence value, including values outside (0,1],
the empty map yields area 0 and a zero-row output container instead of an
InvalidInput failure. -/
theorem empty_map_no_validation (c : ℚ) :
    getContourArea [] c = 0 ∧ writeMOCRows [] c = [] := by
  constructor
  · have h0 : getContourAreaCoeff [] c = 0 := by
      norm_num [getContourAreaCoeff, rankCells, sortAsc]
    rw [getContourArea, h0]
    norm_num
  · norm_num [writeMOCRows, rankCells, sortAsc]

/-- C4 counterexample: a single-cell map with density 1 at confidence 1/2
yields an empty selected prefix (i = 0), and writeMOC writes a zero-row
container rather than failing with a FormatError. -/
theorem empty_coverage_written_cex :
    contourIndex [⟨4, 1⟩] (1/2) = 0 ∧ writeMOCRows [⟨4, 1⟩] (1/2) = [] := by
  norm_num [contourIndex, writeMOCRows, rankCells, sortAsc, insertAsc, probs, cumsum,
    cumsumFrom, searchsortedLeft, uniq2pixareaCoeff, uniq2order, log2floor, log2floorFuel,
    List.takeWhile]

/-- C4 (amended): whenever the search yields i = 0, writeMOC writes an
output container with zero rows and raises no error; in particular every
single-cell map with positive density and any confidence in (0,1] lands
in this case. -/
theorem writeMOC_empty_selection (u : Nat) (d c : ℚ)
    (hd : 0 < d) (hc0 : 0 < c) (hc1 : c ≤ 1) :
    contourIndex [⟨u, d⟩] c = 0 ∧ writeMOCRows [⟨u, d⟩] c = [] := by
  have hprobs : probs (rankCells [⟨u, d⟩]) = [uniq2pixareaCoeff u * d] := by
    simp [probs, rankCells, sortAsc, insertAsc]
  have hcum : cumsum (probs (rankCells [⟨u, d⟩])) = [uniq2pixareaCoeff u * d] := by
    rw [hprobs]
    simp [cumsum, cumsumFrom]
  have hsum : (probs (rankCells [⟨u, d⟩])).sum = uniq2pixareaCoeff u * d := by
    rw [hprobs]
    simp
  have hpos : 0 < uniq2pixareaCoeff u * d := mul_pos (uniq2pixareaCoeff_pos u) hd
  have hnotlt : ¬ (uniq2pixareaCoeff u * d < c * (uniq2pixareaCoeff u * d)) := by
    nlinarith
  have hidx : contourIndex [⟨u, d⟩] c = 0 := by
    rw [contourIndex, searchsortedLeft, hcum, hsum]
    simp [List.takeWhile_cons, hnotlt]
  refine ⟨hidx, ?_⟩
  rw [writeMOCRows, hidx]
  simp

/-- C4 witness: the amended theorem instantiated at a single cell of
order 1, density 2, confidence 3/4. -/
theorem writeMOC_empty_selection_witness :
    contourIndex [⟨16, 2⟩] (3/4) = 0 ∧ writeMOCRows [⟨16, 2⟩] (3/4) = [] :=
  writeMOC_empty_selection 16 2 (3/4) (by norm_num) (by norm_num) (by norm_num)

/-- C5 counterexample: in a batch over contours 90, 50, 10 where the
iteration at 50 raises an IOError (e.g. the output write fails), the
exception escapes writeFiles: only 90 and 50 are processed and 10 is
never reached, so a non-ValueError failure does abort the batch. -/
theorem batch_abort_cex :
    runContours ioFailBody ["90", "50", "10"] = (["90", "50"], some PyErr.ioError) := by
  decide

/-- C5 (amended): writeFiles' loop catches (and logs) only ValueError;
when every per-contour failure is a ValueError the whole batch is
processed and no exception escapes, but failures of any other kind
propagate (see the counterexample). -/
theorem runContours_only_valueError (body : String → Except PyErr Unit) :
    ∀ contours : List String,
      (∀ s ∈ contours, ∀ e, body s = Except.error e → e = PyErr.valueError) →
      runContours body contours = (contours, none) := by
  intro contours
  induction contours with
  | nil => intro _; rfl
  | cons s rest ih =>
    intro h
    have hrest := ih (fun s' hs' e he => h s' (List.mem_cons_of_mem s hs') e he)
    rw [runContours]
    cases hb : body s with
    | ok u => simp [hrest]
    | error e =>
      have he : e = PyErr.valueError := h s (by simp) e hb
      subst he
      simp [hrest]

/-- C5 witness: a batch whose every iteration raises ValueError is still
processed to the end with no escaping exception. -/
theorem runContours_only_valueError_witness :
    runContours (fun _ => Except.error PyErr.valueError) ["90", "50"] = (["90", "50"], none) :=
  runContours_only_valueError _ ["90", "50"]
    (by
      intro s hs e he
      injection he with h
      exact h.symm)

/-- C6: for a probability map (all densities nonnegative) and confidence
fractions c1 <= c2 in (0,1], the reported square-degree area is
monotonically non-decreasing in the confidence. -/
theorem getContourArea_mono_confidence (m : List Cell) (c1 c2 : ℚ)
    (hm : ∀ c ∈ m, 0 ≤ c.probdensity)
    (h0 : 0 < c1) (h12 : c1 ≤ c2) (h21 : c2 ≤ 1) :
    getContourArea m c1 ≤ getContourArea m c2 := by
  have hsum : 0 ≤ (probs (rankCells m)).sum := List.sum_nonneg (probs_nonneg m hm)
  have ht : c1 * (probs (rankCells m)).sum ≤ c2 * (probs (rankCells m)).sum :=
    mul_le_mul_of_nonneg_right h12 hsum
  have hidx : contourIndex m c1 ≤ contourIndex m c2 := by
    rw [contourIndex, contourIndex, searchsortedLeft, searchsortedLeft]
    apply takeWhile_length_mono
    intro x hx
    simp only [decide_eq_true_eq] at hx ⊢
    linarith
  have hcoeff : getContourAreaCoeff m c1 ≤ getContourAreaCoeff m c2 := by
    rw [getContourAreaCoeff, getContourAreaCoeff, List.map_take, List.map_take]
    apply sum_take_mono
    · intro x hx
      rcases List.mem_map.mp hx with ⟨cl, _, rfl⟩
      exact le_of_lt (uniq2pixareaCoeff_pos cl.uniq)
    · exact hidx
  have hcast : ((getContourAreaCoeff m c1 : ℚ) : ℝ) ≤ ((getContourAreaCoeff m c2 : ℚ) : ℝ) := by
    exact_mod_cast hcoeff
  have hfac : (0:ℝ) ≤ Real.pi * (180 / Real.pi) ^ 2 := by positivity
  rw [getContourArea, getContourArea]
  calc (getContourAreaCoeff m c1 : ℝ) * Real.pi * (180 / Real.pi) ^ 2
      = (getContourAreaCoeff m c1 : ℝ) * (Real.pi * (180 / Real.pi) ^ 2) := by ring
    _ ≤ (getContourAreaCoeff m c2 : ℝ) * (Real.pi * (180 / Real.pi) ^ 2) :=
        mul_le_mul_of_nonneg_right hcast hfac
    _ = (getContourAreaCoeff m c2 : ℝ) * Real.pi * (180 / Real.pi) ^ 2 := by ring

/-- C6 witness: the monotonicity theorem at the scenario map with
confidences 1/2 and 9/10. -/
theorem getContourArea_mono_confidence_witness :
    getContourArea scMap (1/2) ≤ getContourArea scMap (9/10) :=
  getContourArea_mono_confidence scMap (1/2) (9/10)
    (by
      intro c hc
      simp only [scMap, List.mem_cons, List.not_mem_nil, or_false] at hc
      rcases hc with h | h | h | h <;> subst h <;> norm_num)
    (by norm_num) (by norm_num) (by norm_num)

/-- C7 counterexample: two permutations of the same probability map (two
cells of equal density 1 at different resolution orders) produce
different cumulative-mass sequences after ranking, so the result is not
permutation-invariant when densities are tied. -/
theorem cumsum_tie_perm_cex :
    tieMapA.Perm tieMapB ∧
    cumsum (probs (rankCells tieMapA)) ≠ cumsum (probs (rankCells tieMapB)) := by
  constructor
  · rw [tieMapA, tieMapB]
    exact List.Perm.swap _ _ _
  · have hA : cumsum (probs (rankCells tieMapA)) = [1/12, 5/12] := by
      norm_num [tieMapA, probs, rankCells, sortAsc, insertAsc, cumsum, cumsumFrom,
        uniq2pixareaCoeff, uniq2order, log2floor, log2floorFuel]
    have hB : cumsum (probs (rankCells tieMapB)) = [1/3, 5/12] := by
      norm_num [tieMapB, probs, rankCells, sortAsc, insertAsc, cumsum, cumsumFrom,
        uniq2pixareaCoeff, uniq2order, log2floor, log2floorFuel]
    rw [hA, hB]
    intro h
    simp only [List.cons.injEq] at h
    norm_num at h

/-- C7 (amended): for every probability map (nonnegative densities, ties
allowed) the cumulative mass sequence after ranking is non-decreasing;
and when the densities are pairwise distinct (no ties) the cumulative
sequence is the same for every pre-sort permutation of the cells.  Each
conjunct carries only its own hypothesis: non-decreasingness needs only
nonnegativity, invariance needs the permutation and distinctness. -/
theorem cumsum_rank_props (l1 l2 : List Cell) :
    ((∀ c ∈ l1, 0 ≤ c.probdensity) →
      List.Chain' (· ≤ ·) (cumsum (probs (rankCells l1)))) ∧
    (l1.Perm l2 →
      l1.Pairwise (fun a b => a.probdensity ≠ b.probdensity) →
      cumsum (probs (rankCells l1)) = cumsum (probs (rankCells l2))) := by
  constructor
  · intro hnn
    rw [cumsum]
    exact cumsumFrom_chain' _ (probs_nonneg l1 hnn) 0
  · intro hperm hdist
    have hsort : sortAsc l1 = sortAsc l2 := by
      apply sorted_distinct_eq _ _ (sortAsc_pairwise l1) (sortAsc_pairwise l2)
      · exact (sortAsc_perm l1).trans (hperm.trans (sortAsc_perm l2).symm)
      · exact ((sortAsc_perm l1).pairwise_iff (fun hab => Ne.symm hab)).mpr hdist
    rw [rankCells, rankCells, hsort]

/-- C7 witness: the non-decreasing conjunct exercised on the tied-density
map tieMapA (both densities 1), and the invariance conjunct on a two-cell
map with distinct densities and its transposition. -/
theorem cumsum_rank_props_witness :
    List.Chain' (· ≤ ·) (cumsum (probs (rankCells tieMapA))) ∧
    cumsum (probs (rankCells [⟨4, 1/10⟩, ⟨5, 2/5⟩]))
      = cumsum (probs (rankCells [⟨5, 2/5⟩, ⟨4, 1/10⟩])) := by
  constructor
  · apply (cumsum_rank_props tieMapA tieMapA).1
    intro c hc
    simp only [tieMapA, List.mem_cons, List.not_mem_nil, or_false] at hc
    rcases hc with h | h <;> subst h <;> norm_num
  · apply (cumsum_rank_props [⟨4, 1/10⟩, ⟨5, 2/5⟩] [⟨5, 2/5⟩, ⟨4, 1/10⟩]).2
      (List.Perm.swap _ _ _)
    simp only [List.pairwise_cons, List.mem_cons, List.not_mem_nil, or_false,
      List.Pairwise.nil, and_true]
    constructor
    · intro b hb
      subst hb
      norm_num
    · intro b hb
      exact absurd hb (by simp)

/-- C8 counterexample: for a map whose two densest cells appear in input
order 4 then 5, the written rows at confidence 9/10 are [5, 4], which is
not an order-preserving subset (sublist) of the input's UNIQ values
[4, 5, 6]: the output follows the ranked order, not the input order. -/
theorem rows_not_input_sublist_cex :
    writeMOCRows c8Map (9/10) = [5, 4] ∧
    c8Map.map Cell.uniq = [4, 5, 6] ∧
    ¬ ([5, 4] : List Nat).Sublist [4, 5, 6] := by
  refine ⟨?_, by simp [c8Map], by decide⟩
  norm_num [c8Map, writeMOCRows, contourIndex, rankCells, sortAsc, insertAsc, probs, cumsum,
    cumsumFrom, searchsortedLeft, uniq2pixareaCoeff, uniq2order, log2floor, log2floorFuel,
    List.takeWhile]

/-- C8 (amended): the output container holds only the UNIQ column, its
row count equals the prefix length i found by the search, and its UNIQ
values are an order-preserving subset (indeed the length-i prefix) of the
RANKED map's UNIQ values, not of the input ordering. -/
theorem writeMOC_rows_projection (m : List Cell) (c : ℚ) :
    writeMOCRows m c = ((rankCells m).map Cell.uniq).take (contourIndex m c) ∧
    (writeMOCRows m c).length = contourIndex m c ∧
    (writeMOCRows m c).Sublist ((rankCells m).map Cell.uniq) := by
  have h1 : writeMOCRows m c = ((rankCells m).map Cell.uniq).take (contourIndex m c) := by
    rw [writeMOCRows, List.map_take]
  refine ⟨h1, ?_, ?_⟩
  · rw [h1, List.length_take]
    have hle : contourIndex m c ≤ ((rankCells m).map Cell.uniq).length := by
      rw [List.length_map, rankCells_length]
      exact contourIndex_le_length m c
    omega
  · rw [h1]
    exact List.take_sublist _ _

/-- C9: the post-write correction sets the TFORM1 header card to the
fixed signed-64-bit code '1K' for every written container (regardless of
the payload values), leaves the payload rows untouched, and changes no
other header card. -/
theorem correctMocHeader_spec (f : MocFits) (k : String) (hk : k ≠ "TFORM1") :
    headerLookup "TFORM1" (correctMocHeader f).header = some "1K" ∧
    (correctMocHeader f).payload = f.payload ∧
    headerLookup k (correctMocHeader f).header = headerLookup k f.header := by
  refine ⟨?_, rfl, ?_⟩
  · exact headerLookup_headerSet_self _ _ f.header
  · exact headerLookup_headerSet_ne _ _ k hk f.header

/-- C9 witness: the correction theorem applied to a concrete container
whose serializer chose the auto code 'K', checking the unrelated TTYPE1
card. -/
theorem correctMocHeader_spec_witness :
    headerLookup "TFORM1"
        (correctMocHeader ⟨[("TFORM1", "K"), ("TTYPE1", "UNIQ")], [5, 4]⟩).header = some "1K" ∧
    (correctMocHeader ⟨[("TFORM1", "K"), ("TTYPE1", "UNIQ")], [5, 4]⟩).payload = [5, 4] ∧
    headerLookup "TTYPE1"
        (correctMocHeader ⟨[("TFORM1", "K"), ("TTYPE1", "UNIQ")], [5, 4]⟩).header
      = headerLookup "TTYPE1" [("TFORM1", "K"), ("TTYPE1", "UNIQ")] :=
  correctMocHeader_spec ⟨[("TFORM1", "K"), ("TTYPE1", "UNIQ")], [5, 4]⟩ "TTYPE1" (by decide)

/-- C10: each contour is written to directory + '/' + contour + '.moc'
whether or not organise is set: the write effects (with their paths) of
the organise and plain branches coincide per contour and over the whole
batch, the plain branch's effects being exactly one write at that path
when the contour parses (and none otherwise); organise only adds
makedirs effects. -/
theorem writeFiles_organise_paths (parse : String → Option ℚ) (dir s : String)
    (contours : List String) :
    (contourEffects parse dir true s).filter isWriteEffect =
      (contourEffects parse dir false s).filter isWriteEffect ∧
    contourEffects parse dir false s =
      (cond (parse s).isSome [FSEffect.writeMOCFile (dir ++ "/" ++ s ++ ".moc")] []) ∧
    writeFilesEffects parse dir false contours =
      (writeFilesEffects parse dir true contours).filter isWriteEffect := by
  refine ⟨?_, ?_, ?_⟩
  · rw [contourEffects, contourEffects]
    cases parse s with
    | none => rfl
    | some q => simp [isWriteEffect]
  · rw [contourEffects]
    cases hp : parse s with
    | none => simp
    | some q => simp
  · rw [writeFilesEffects, writeFilesEffects]
    induction contours with
    | nil => rfl
    | cons s' rest ih =>
      simp only [List.map_cons, List.flatten_cons, List.filter_append]
      rw [ih]
      congr 1
      rw [contourEffects, contourEffects]
      cases parse s' with
      | none => rfl
      | some q => simp [isWriteEffect]
